import Mathlib

/-
Shallow embedding of the archive construction and identity-hashing subsystem
of zenodo-publisher, translated from:
  src/release_tool/config_schema.py          (dedup_args, default argument lists)
  src/release_tool/config_transform_common.py (GZIP/TAR defaults, TREE_ALGORITHMS)
  src/release_tool/git_operations.py          (extract_zip, compute_tree_hash, pack_tar)
  src/release_tool/archive_operation.py       (process_project_archive, compute_hashes,
                                               _compute_identifiers)

Python strings are modelled through their character lists so that every
operation is structurally recursive and kernel-computable; Python dicts are
modelled as insertion-ordered association lists with unique keys; raised
exceptions are modelled with Except String; the external hash routine
(hashlib) and the git tree hasher are uninterpreted function parameters.
-/

/-- Characterwise model of Python arg.startswith(p) (same as String.startsWith). -/
def strStarts (s pre : String) : Bool := pre.toList.isPrefixOf s.toList

/-- Characterwise model of Python s[n:] (same as String.drop). -/
def strDropN (s : String) (n : Nat) : String := (s.toList.drop n).asString

/-- Model of Python arg.split("=")[0]: the longest prefix before the first '='. -/
def upToEq (s : String) : String := (s.toList.takeWhile (fun c => c != '=')).asString

/-- Model of Python ("=" in arg). -/
def hasEq (s : String) : Bool := s.toList.contains '='

/-- Lookup in an insertion-ordered association list (Python dict read). -/
def lookupA {β : Type} : List (String × β) → String → Option β
  | [], _ => none
  | (k, v) :: rest, a => if k = a then some v else lookupA rest a

/-- Removal of a key (Python dict del / pop; keys are unique in every dict we build). -/
def eraseKey {β : Type} : List (String × β) → String → List (String × β)
  | [], _ => []
  | (k, v) :: rest, a => if k = a then eraseKey rest a else (k, v) :: eraseKey rest a

/-- Python dict assignment d[k] = v: update in place when the key exists,
append at the end otherwise. -/
def dictInsert {β : Type} : List (String × β) → String → β → List (String × β)
  | [], k, v => [(k, v)]
  | (k0, v0) :: rest, k, v =>
    if k0 = k then (k, v) :: rest else (k0, v0) :: dictInsert rest k v

/-- Embedding of the inner helper _arg_key of dedup_args (config_schema.py):
the merge key of one command-line argument. -/
def arg_key (arg : String) : String :=
  if strStarts arg "--" then strDropN (upToEq arg) 2
  else if strStarts arg "-" && decide (2 < arg.toList.length) then (arg.toList.take 2).asString
  else if hasEq arg then upToEq arg
  else arg

/-- Embedding of the main loop of dedup_args (config_schema.py): folds the
concatenated argument list into the seen dict and the order list. -/
def dedupLoop : List String → List (String × String) → List String → List (String × String) × List String
  | [], seen, order => (seen, order)
  | arg :: args, seen, order =>
    if strStarts arg "--no-" then
      let key := strDropN arg 5
      if (lookupA seen key).isSome then
        dedupLoop args (eraseKey seen key) (order.erase key)
      else
        dedupLoop args seen order
    else
      let key := arg_key arg
      let order' := if (lookupA seen key).isSome then order else order ++ [key]
      dedupLoop args (dictInsert seen key arg) order'

/-- Embedding of dedup_args (config_schema.py). -/
def dedup_args (default_args user_args : List String) : List String :=
  let sr := dedupLoop (default_args ++ user_args) [] []
  sr.2.filterMap (fun k => lookupA sr.1 k)

/-- GZIP_DEFAULT_ARGS of config_transform_common.py. -/
def GZIP_DEFAULT_ARGS : List String := ["--no-name", "--best"]

/-- Embedding of _build_gzip_args (config_transform_common.py): the merged gzip
argument list; the warning side effect is modelled by the Bool component,
true exactly when the merge differs from the defaults. -/
def build_gzip_args (value : Option (List String)) : List String × Bool :=
  let result := dedup_args GZIP_DEFAULT_ARGS (value.getD [])
  (result, decide (result ≠ GZIP_DEFAULT_ARGS))

/-- C1: the claim states that dedup_args GZIP_DEFAULT_ARGS [] equals
GZIP_DEFAULT_ARGS unchanged, in particular that it still contains --no-name.
In the code the merge loop treats the default argument --no-name itself as a
removal directive for a flag named "name" and silently drops it: the merged
list is ["--best"], and _build_gzip_args raises its custom-args warning even
though the user supplied no extra arguments. -/
theorem dedup_args_drops_no_name :
    dedup_args GZIP_DEFAULT_ARGS [] = ["--best"] ∧
    dedup_args GZIP_DEFAULT_ARGS [] ≠ GZIP_DEFAULT_ARGS ∧
    build_gzip_args none = (["--best"], true) := by decide

/-- Model of a directory tree: the content a zip or tar archive packages. -/
inductive FSTree where
  | file (data : String)
  | dir (entries : List (String × FSTree))

/-- Whether a path is a directory (Python Path.is_dir on an extracted entry). -/
def FSTree.isDir : FSTree → Bool
  | .file _ => false
  | .dir _ => true

/-- Whether a directory contains a top-level .git entry (git_operations.py:
the (content_dir / ".git").exists() precondition check of compute_tree_hash). -/
def hasGit : FSTree → Bool
  | .file _ => false
  | .dir es => es.any (fun p => p.1 == ".git")

/-- Effect of git init inside a directory: a .git entry appears. The internal
layout of .git is irrelevant to every claim, only its presence matters, so it
is modelled as an empty directory. -/
def addGit : FSTree → FSTree
  | .file d => .file d
  | .dir es => .dir (es ++ [(".git", .dir [])])

/-- A zip archive, modelled by the top-level entries its extraction produces
in a fresh destination directory. -/
structure ZipArchive where
  entries : List (String × FSTree)

/-- Result of extract_zip: the name of the directory the returned path points
to, its content, and whether the returned path is the single top-level
subdirectory (true) or the destination directory itself (false). -/
structure ExtractResult where
  name : String
  content : FSTree
  returnedSubdir : Bool

/-- Embedding of extract_zip (git_operations.py): extract into destName, then
return the single top-level entry when it is the unique entry and a directory,
the destination directory otherwise. -/
def extract_zip (z : ZipArchive) (destName : String) : ExtractResult :=
  match z.entries with
  | [(n, t)] => if t.isDir then ⟨n, t, true⟩ else ⟨destName, FSTree.dir z.entries, false⟩
  | _ => ⟨destName, FSTree.dir z.entries, false⟩

/-- Embedding of compute_tree_hash (git_operations.py). treeHashFn is the
uninterpreted model of git write-tree over a staged content tree for a given
object format; git add --all never stages .git itself, so the hash is taken of
the tree as it was before git init. The returned tree is the state of
content_dir afterwards: the code has no cleanup of the .git directory it
created (its docstring promises removal in a finally block that is absent), so
.git stays behind. A GitError is raised when a .git entry already exists. -/
def compute_tree_hash (treeHashFn : String → FSTree → String) (content : FSTree)
    (object_format : String) : Except String (String × FSTree) :=
  if hasGit content then .error "content_dir already contains .git"
  else .ok (treeHashFn object_format content, addGit content)

/-- A tar (or tar.gz) archive produced by pack_tar: output file name, the name
of the packaged directory (the archive prefix) and its packaged content. -/
structure TarArchive where
  fname : String
  dirname : String
  content : FSTree
  gz : Bool

/-- Embedding of pack_tar (git_operations.py). The external tar and gzip
subprocesses are modelled by their documented effect: tar -cf packages the
directory dirname with its current contents under the prefix dirname, and gzip
compresses the result losslessly, so the packaged content is carried over
unchanged. -/
def pack_tar (dirname : String) (content : FSTree) (output_name : String)
    (compress_gz : Bool) : TarArchive :=
  ⟨output_name, dirname, content, compress_gz⟩

/-- TREE_ALGORITHMS of config_transform_common.py / config_schema.py. -/
def TREE_ALGORITHMS : List (String × String) := [("tree", "sha1"), ("tree256", "sha256")]

/-- Embedding of the tree-hash loop of process_project_archive
(archive_operation.py): for each requested algorithm, look up its object
format (a missing key is Python's KeyError) and run compute_tree_hash on the
extracted directory, threading the directory state through the calls. -/
def treeHashLoop (treeHashFn : String → FSTree → String) :
    List String → FSTree → Except String (List (String × String) × FSTree)
  | [], content => .ok ([], content)
  | algo :: rest, content =>
    match lookupA TREE_ALGORITHMS algo with
    | none => .error ("KeyError: " ++ algo)
    | some fmt =>
      match compute_tree_hash treeHashFn content fmt with
      | .error e => .error e
      | .ok (h, content') =>
        match treeHashLoop treeHashFn rest content' with
        | .error e => .error e
        | .ok (hs, content'') => .ok ((algo, h) :: hs, content'')

/-- What process_project_archive returns as final path: the original zip
unchanged, or a freshly packed tar file (the original zip being unlinked). -/
inductive ArchiveOut where
  | originalZip
  | tarFile (t : TarArchive)

/-- Observable outcome of process_project_archive: the final path, the final
format string, the tree-hash map, and how many times the zip was extracted. -/
structure ProcessResult where
  out : ArchiveOut
  final_format : String
  tree_hashes : List (String × String)
  extractions : Nat

/-- Embedding of process_project_archive (archive_operation.py). -/
def process_project_archive (treeHashFn : String → FSTree → String) (z : ZipArchive)
    (filename : String) (tree_algos : List String) (archive_format : String) :
    Except String ProcessResult :=
  if tree_algos = [] ∧ ¬(archive_format = "tar" ∨ archive_format = "tar.gz") then
    .ok ⟨ArchiveOut.originalZip, "zip", [], 0⟩
  else
    let ex := extract_zip z "tmp"
    match treeHashLoop treeHashFn tree_algos ex.content with
    | .error e => .error e
    | .ok (hashes, content') =>
      if archive_format = "tar" ∨ archive_format = "tar.gz" then
        let compress_gz := archive_format = "tar.gz"
        let ext := if compress_gz then "tar.gz" else "tar"
        let tar := pack_tar ex.name content' (filename ++ "." ++ ext) compress_gz
        .ok ⟨ArchiveOut.tarFile tar, archive_format, hashes, 1⟩
      else
        .ok ⟨ArchiveOut.originalZip, "zip", hashes, 1⟩

/-- C7: with no tree algorithms requested and target format zip,
process_project_archive returns the original zip unchanged, with format
"zip", an empty tree-hash map and zero extractions. -/
theorem process_project_archive_noop (treeHashFn : String → FSTree → String)
    (z : ZipArchive) (filename : String) :
    process_project_archive treeHashFn z filename [] "zip" =
      .ok ⟨ArchiveOut.originalZip, "zip", [], 0⟩ := rfl

/-- Concrete inputs for the failing evaluations: a zip holding a single
project root directory with one source file. -/
def zProj : ZipArchive := ⟨[("proj", FSTree.dir [("a.txt", FSTree.file "x")])]⟩

/-- Constant stand-in for git write-tree in concrete evaluations. -/
def hashStub : String → FSTree → String := fun _ _ => "h"

/-- C2: the claim states that for every non-empty list of requested tree
algorithms the call returns one tree hash per algorithm without raising. With
both algorithms requested, the first compute_tree_hash leaves its .git
directory behind (no finally cleanup), so the second raises GitError
"content_dir already contains .git". -/
theorem process_project_archive_two_algos_raises :
    process_project_archive hashStub zProj "proj" ["tree", "tree256"] "zip" =
      .error "content_dir already contains .git" := rfl

/-- C3: the claim states that the packed tar contains exactly the original
content tree, making the tree hash invariant across zip, tar and tar.gz. After
compute_tree_hash runs, the content directory still holds the .git directory
that git init created, and pack_tar packages it: the tar content is the
original tree plus a .git entry, so re-extracting the tar and re-running
compute_tree_hash raises GitError instead of reproducing the zip's tree hash. -/
theorem packed_tar_contains_git :
    process_project_archive hashStub zProj "proj" ["tree"] "tar" =
      .ok ⟨ArchiveOut.tarFile ⟨"proj.tar", "proj",
             FSTree.dir [("a.txt", FSTree.file "x"), (".git", FSTree.dir [])], false⟩,
           "tar", [("tree", "h")], 1⟩ ∧
    hasGit (FSTree.dir [("a.txt", FSTree.file "x"), (".git", FSTree.dir [])]) = true ∧
    hasGit (FSTree.dir [("a.txt", FSTree.file "x")]) = false ∧
    compute_tree_hash hashStub
        (FSTree.dir [("a.txt", FSTree.file "x"), (".git", FSTree.dir [])]) "sha1" =
      .error "content_dir already contains .git" :=
  ⟨rfl, rfl, rfl, rfl⟩

/-- C10: extract_zip returns the single top-level entry exactly when it is the
unique top-level entry and a directory; in every other case (no entry, several
entries, or a single entry that is a regular file) it returns the destination
directory itself, whose content is the full entry list. -/
theorem extract_zip_root_cases (z : ZipArchive) (destName : String) :
    (∀ n t, z.entries = [(n, t)] → t.isDir = true →
      extract_zip z destName = ⟨n, t, true⟩) ∧
    ((∀ n t, z.entries = [(n, t)] → t.isDir = false) →
      extract_zip z destName = ⟨destName, FSTree.dir z.entries, false⟩) := by
  constructor
  · intro n t h hd
    simp [extract_zip, h, hd]
  · intro h
    match hz : z.entries with
    | [] => simp [extract_zip, hz]
    | [(n, t)] => simp [extract_zip, hz, h n t hz]
    | (n1, t1) :: (n2, t2) :: rest => simp [extract_zip, hz]

/-- Witness for C10: a single-directory zip yields the subdirectory; a zip
with two top-level files yields the destination directory. -/
theorem extract_zip_root_cases_witness :
    extract_zip ⟨[("proj", FSTree.dir [])]⟩ "tmp" = ⟨"proj", FSTree.dir [], true⟩ ∧
    extract_zip ⟨[("a.txt", FSTree.file "x"), ("b.txt", FSTree.file "y")]⟩ "tmp" =
      ⟨"tmp", FSTree.dir [("a.txt", FSTree.file "x"), ("b.txt", FSTree.file "y")], false⟩ := by
  constructor
  · exact (extract_zip_root_cases ⟨[("proj", FSTree.dir [])]⟩ "tmp").1 "proj" (FSTree.dir []) rfl rfl
  · exact (extract_zip_root_cases ⟨[("a.txt", FSTree.file "x"), ("b.txt", FSTree.file "y")]⟩ "tmp").2
      (by intro n t h; simp at h)

/-- Lexicographic comparison of character lists by code point: the order
Python sorted uses on strings. -/
def listLe : List Char → List Char → Bool
  | [], _ => true
  | _ :: _, [] => false
  | a :: as, b :: bs =>
    if a.toNat < b.toNat then true
    else if b.toNat < a.toNat then false
    else listLe as bs

/-- Model of Python string comparison a <= b. -/
def strLeB (a b : String) : Bool := listLe a.toList b.toList

/-- Insert a string into a sorted list (auxiliary of the sorted model). -/
def orderedInsertStr (a : String) : List String → List String
  | [] => [a]
  | b :: l => if strLeB a b then a :: b :: l else b :: orderedInsertStr a l

/-- Model of Python sorted on a list of strings. -/
def sortHashes : List String → List String
  | [] => []
  | a :: l => orderedInsertStr a (sortHashes l)

/-- Characters with equal code points are equal. -/
theorem charToNat_inj {a b : Char} (h : a.toNat = b.toNat) : a = b :=
  Char.eq_of_val_eq (UInt32.toNat.inj h)

/-- Totality of the lexicographic comparison. -/
theorem listLe_total : ∀ x y : List Char, listLe x y = true ∨ listLe y x = true := by
  intro x
  induction x with
  | nil => intro y; left; rfl
  | cons a as ih =>
    intro y
    cases y with
    | nil => right; rfl
    | cons b bs =>
      by_cases h1 : a.toNat < b.toNat
      · left; simp [listLe, h1]
      · by_cases h2 : b.toNat < a.toNat
        · right; simp [listLe, h2]
        · rcases ih bs with h | h
          · left; simp [listLe, h1, h2, h]
          · right; simp [listLe, h1, h2, h]

/-- Transitivity of the lexicographic comparison. -/
theorem listLe_trans : ∀ x y z : List Char,
    listLe x y = true → listLe y z = true → listLe x z = true := by
  intro x
  induction x with
  | nil => intro y z _ _; rfl
  | cons a as ih =>
    intro y z hxy hyz
    cases y with
    | nil => simp [listLe] at hxy
    | cons b bs =>
      cases z with
      | nil => simp [listLe] at hyz
      | cons c cs =>
        simp only [listLe] at hxy hyz ⊢
        by_cases hab : a.toNat < b.toNat
        · by_cases hbc : b.toNat < c.toNat
          · simp [show a.toNat < c.toNat by omega]
          · by_cases hcb : c.toNat < b.toNat
            · simp [hbc, hcb] at hyz
            · simp [show a.toNat < c.toNat by omega]
        · by_cases hba : b.toNat < a.toNat
          · simp [hab, hba] at hxy
          · by_cases hbc : b.toNat < c.toNat
            · simp [show a.toNat < c.toNat by omega]
            · by_cases hcb : c.toNat < b.toNat
              · simp [hbc, hcb] at hyz
              · have hac : ¬ a.toNat < c.toNat := by omega
                have hca : ¬ c.toNat < a.toNat := by omega
                simp only [hab, hba, if_neg, ite_false] at hxy
                simp only [hbc, hcb, if_neg, ite_false] at hyz
                simp [hac, hca, ih bs cs hxy hyz]

/-- Antisymmetry of the lexicographic comparison. -/
theorem listLe_antisymm : ∀ x y : List Char,
    listLe x y = true → listLe y x = true → x = y := by
  intro x
  induction x with
  | nil =>
    intro y _ hyx
    cases y with
    | nil => rfl
    | cons b bs => simp [listLe] at hyx
  | cons a as ih =>
    intro y hxy hyx
    cases y with
    | nil => simp [listLe] at hxy
    | cons b bs =>
      simp only [listLe] at hxy hyx
      by_cases h1 : a.toNat < b.toNat
      · have h1' : ¬ b.toNat < a.toNat := by omega
        simp [h1, h1'] at hyx
      · by_cases h2 : b.toNat < a.toNat
        · simp [h1, h2] at hxy
        · have he : a = b := charToNat_inj (by omega)
          simp only [h1, h2, if_neg, ite_false] at hxy hyx
          rw [he, ih bs hxy hyx]

/-- The order Python sorted uses on strings, as a relation. -/
def rStr (a b : String) : Prop := strLeB a b = true

instance : DecidableRel rStr := fun _ _ => instDecidableEqBool _ _

instance : IsTotal String rStr := ⟨fun a b => listLe_total a.toList b.toList⟩

instance : IsTrans String rStr := ⟨fun a b c => listLe_trans a.toList b.toList c.toList⟩

instance : IsAntisymm String rStr :=
  ⟨fun a b h1 h2 => String.toList_inj.mp (listLe_antisymm a.toList b.toList h1 h2)⟩

/-- Our insert agrees with Mathlib's orderedInsert over rStr. -/
theorem orderedInsertStr_eq (a : String) (l : List String) :
    orderedInsertStr a l = List.orderedInsert rStr a l := by
  induction l with
  | nil => rfl
  | cons b l ih =>
    simp only [orderedInsertStr, List.orderedInsert]
    by_cases h : strLeB a b = true
    · simp [h, rStr]
    · simp [h, rStr, ih]

/-- Our sorted model agrees with Mathlib's insertionSort over rStr. -/
theorem sortHashes_eq_insertionSort (l : List String) :
    sortHashes l = List.insertionSort rStr l := by
  induction l with
  | nil => rfl
  | cons a l ih => simp [sortHashes, List.insertionSort, ih, orderedInsertStr_eq]

/-- Sorting is invariant under permutation of the input. -/
theorem sortHashes_perm {l₁ l₂ : List String} (h : l₁.Perm l₂) :
    sortHashes l₁ = sortHashes l₂ := by
  rw [sortHashes_eq_insertionSort, sortHashes_eq_insertionSort]
  exact List.eq_of_perm_of_sorted
    ((List.perm_insertionSort rStr l₁).trans (h.trans (List.perm_insertionSort rStr l₂).symm))
    (List.sorted_insertionSort rStr l₁) (List.sorted_insertionSort rStr l₂)

/-- A computed hash as stored by compute_file_hash (archive_operation.py):
its hex value and the "algo:hex" display form. -/
structure HashVal where
  value : String
  formatted_value : String
deriving DecidableEq

/-- An archived entry dict as built by archive (archive_operation.py).
file_data models the byte content of the file at entry["file_path"] (the only
thing hashing reads from it); tree_pre models the extra algorithm keys merged
into the entry dict by entry.update(tree_hashes) in _postprocess; hashes is
the entry["hashes"] dict written by compute_hashes. -/
structure Entry where
  file_data : String
  filename : String
  extension : String
  type : String
  tree_pre : List (String × String)
  hashes : List (String × HashVal)
deriving DecidableEq

/-- Embedding of compute_file_hash (archive_operation.py); hashFn is the
uninterpreted model of hashlib.new(algorithm, data).hexdigest(). -/
def compute_file_hash (hashFn : String → String → String) (file_data algorithm : String) : HashVal :=
  ⟨hashFn algorithm file_data, algorithm ++ ":" ++ hashFn algorithm file_data⟩

/-- The all_algos set of compute_hashes: the baseline md5 and sha256 plus the
configured extras. Python builds a set; duplicates and iteration order are
irrelevant because the per-algorithm result lands in a dict keyed by the
algorithm and depends only on the algorithm, so a duplicated name just
rewrites the same dict slot with the same value. -/
def allAlgos (algorithms : Option (List String)) : List String :=
  "md5" :: "sha256" :: algorithms.getD []

/-- Whether an algorithm name is a tree algorithm (membership in TREE_ALGORITHMS). -/
def isTreeAlgo (a : String) : Bool := (lookupA TREE_ALGORITHMS a).isSome

/-- The file-algorithm pass of compute_hashes: plain hashlib hash of the entry
file for every non-tree algorithm, written into the hashes dict in turn. -/
def addFileHashes (hashFn : String → String → String) (file_data : String) :
    List String → List (String × HashVal) → List (String × HashVal)
  | [], m => m
  | a :: rest, m =>
    addFileHashes hashFn file_data rest (dictInsert m a (compute_file_hash hashFn file_data a))

/-- The tree-algorithm pass of compute_hashes: a project entry must carry a
pre-computed value in its dict (entry.pop(algo)) or a ValueError is raised; a
non-project entry falls back to hashing the file itself with the tree
algorithm's underlying hashlib algorithm, labeled with the tree name. -/
def addTreeHashes (hashFn : String → String → String) (etype file_data : String) :
    List String → List (String × String) → List (String × HashVal) →
    Except String (List (String × HashVal) × List (String × String))
  | [], pre, m => .ok (m, pre)
  | algo :: rest, pre, m =>
    if etype = "project" then
      match lookupA pre algo with
      | none => .error ("Tree hash " ++ algo ++ " not pre-computed for project entry")
      | some v =>
        addTreeHashes hashFn etype file_data rest (eraseKey pre algo)
          (dictInsert m algo ⟨v, algo ++ ":" ++ v⟩)
    else
      match lookupA TREE_ALGORITHMS algo with
      | none => .error ("KeyError: " ++ algo)
      | some ha =>
        addTreeHashes hashFn etype file_data rest pre
          (dictInsert m algo ⟨hashFn ha file_data, algo ++ ":" ++ hashFn ha file_data⟩)

/-- Embedding of the body of compute_hashes for one entry
(archive_operation.py): split all_algos into file and tree algorithms, run
the two passes, and store the dict as entry["hashes"]. -/
def computeEntryHashes (hashFn : String → String → String) (algorithms : Option (List String))
    (entry : Entry) : Except String Entry :=
  let all := allAlgos algorithms
  let fileA := all.filter (fun a => !(isTreeAlgo a))
  let treeA := all.filter (fun a => isTreeAlgo a)
  let m1 := addFileHashes hashFn entry.file_data fileA []
  match addTreeHashes hashFn entry.type entry.file_data treeA entry.tree_pre m1 with
  | .error e => .error e
  | .ok (m2, pre') => .ok { entry with hashes := m2, tree_pre := pre' }

/-- Embedding of compute_hashes (archive_operation.py) over the results list. -/
def compute_hashes (hashFn : String → String → String) :
    List Entry → Option (List String) → Except String (List Entry)
  | [], _ => .ok []
  | e :: rest, algorithms =>
    match computeEntryHashes hashFn algorithms e with
    | .error s => .error s
    | .ok e' =>
      match compute_hashes hashFn rest algorithms with
      | .error s => .error s
      | .ok rest' => .ok (e' :: rest')

/-- Looking up the key just written finds the written value. -/
theorem lookupA_dictInsert_self {β : Type} (m : List (String × β)) (k : String) (v : β) :
    lookupA (dictInsert m k v) k = some v := by
  induction m with
  | nil => simp [dictInsert, lookupA]
  | cons kv rest ih =>
    obtain ⟨k0, v0⟩ := kv
    by_cases h : k0 = k
    · simp [dictInsert, h, lookupA]
    · simp [dictInsert, h, lookupA, ih]

/-- Writing one key leaves every other key's lookup unchanged. -/
theorem lookupA_dictInsert_ne {β : Type} (m : List (String × β)) (k a : String) (v : β)
    (h : a ≠ k) : lookupA (dictInsert m k v) a = lookupA m a := by
  induction m with
  | nil => simp [dictInsert, lookupA, Ne.symm h]
  | cons kv rest ih =>
    obtain ⟨k0, v0⟩ := kv
    by_cases hk : k0 = k
    · subst hk
      simp [dictInsert, lookupA, Ne.symm h]
    · simp [dictInsert, hk, lookupA, ih]

/-- A key absent from a dict is still absent after removing another key. -/
theorem lookupA_eraseKey_none {β : Type} (m : List (String × β)) (a b : String)
    (h : lookupA m a = none) : lookupA (eraseKey m b) a = none := by
  induction m with
  | nil => rfl
  | cons kv rest ih =>
    obtain ⟨k, v⟩ := kv
    by_cases hk : k = a
    · simp [lookupA, hk] at h
    · simp only [lookupA, if_neg hk] at h
      by_cases hb : k = b
      · simp [eraseKey, hb, ih h]
      · simp [eraseKey, hb, lookupA, hk, ih h]

/-- With no extra algorithms configured (None or the empty list), the hashes
dict an entry receives is exactly the two baselines. -/
theorem computeEntryHashes_defaults (hashFn : String → String → String)
    (algorithms : Option (List String)) (e : Entry)
    (h : algorithms = none ∨ algorithms = some []) :
    computeEntryHashes hashFn algorithms e =
      .ok { e with hashes := [("md5", compute_file_hash hashFn e.file_data "md5"),
                             ("sha256", compute_file_hash hashFn e.file_data "sha256")] } := by
  rcases h with h | h <;> subst h <;> rfl

/-- C8: compute_hashes with no extra algorithms configured (empty or None
algorithm list) succeeds and still populates both baseline algorithms md5 and
sha256 in every produced entry's hashes dict. -/
theorem compute_hashes_baseline (hashFn : String → String → String) (results : List Entry)
    (algorithms : Option (List String))
    (h : algorithms = none ∨ algorithms = some []) :
    ∃ out, compute_hashes hashFn results algorithms = .ok out ∧
      ∀ e ∈ out, (lookupA e.hashes "md5").isSome ∧ (lookupA e.hashes "sha256").isSome := by
  induction results with
  | nil => exact ⟨[], by rcases h with h | h <;> subst h <;> rfl, by intro e he; cases he⟩
  | cons e rest ih =>
    obtain ⟨out, hout, hprop⟩ := ih
    refine ⟨{ e with hashes := [("md5", compute_file_hash hashFn e.file_data "md5"),
                               ("sha256", compute_file_hash hashFn e.file_data "sha256")] } :: out,
            ?_, ?_⟩
    · simp [compute_hashes, computeEntryHashes_defaults hashFn algorithms e h, hout]
    · intro x hx
      rcases List.mem_cons.mp hx with hx | hx
      · subst hx
        exact ⟨rfl, rfl⟩
      · exact hprop x hx

/-- Concrete hash function for witnesses. -/
def hashFnW : String → String → String := fun a d => a ++ "-" ++ d

/-- Concrete entry for witnesses. -/
def entryW : Entry := ⟨"data", "doc", "pdf", "main_file", [], []⟩

/-- Witness for C8 at a one-entry list with algorithms = none. -/
theorem compute_hashes_baseline_witness :
    ∃ out, compute_hashes hashFnW [entryW] none = .ok out ∧
      ∀ e ∈ out, (lookupA e.hashes "md5").isSome ∧ (lookupA e.hashes "sha256").isSome :=
  compute_hashes_baseline hashFnW [entryW] none (Or.inl rfl)

/-- For a project entry, a requested tree algorithm with no pre-computed value
in the entry dict makes the tree pass raise, whatever else the list holds. -/
theorem addTreeHashes_missing (hashFn : String → String → String) (file_data : String)
    (algos : List String) (a : String) (ha : a ∈ algos) :
    ∀ pre m, lookupA pre a = none →
      ∃ msg, addTreeHashes hashFn "project" file_data algos pre m = .error msg := by
  induction algos with
  | nil => cases ha
  | cons b rest ih =>
    intro pre m hmiss
    simp only [addTreeHashes, if_pos rfl]
    cases hb : lookupA pre b with
    | none => exact ⟨_, rfl⟩
    | some v =>
      rcases List.mem_cons.mp ha with rfl | ha'
      · rw [hb] at hmiss; cases hmiss
      · exact ih ha' (eraseKey pre b) _ (lookupA_eraseKey_none pre a b hmiss)

/-- For a non-project entry the tree pass always succeeds when every requested
algorithm is a tree algorithm, leaves the entry dict untouched, and writes the
labeled fallback file hash for each requested algorithm. -/
theorem addTreeHashes_nonproject (hashFn : String → String → String)
    (etype file_data : String) (hnp : ¬ etype = "project") (algos : List String) :
    ∀ pre m, (∀ x ∈ algos, (lookupA TREE_ALGORITHMS x).isSome) →
      ∃ m', addTreeHashes hashFn etype file_data algos pre m = .ok (m', pre) ∧
        (∀ a ha, a ∈ algos → lookupA TREE_ALGORITHMS a = some ha →
          lookupA m' a = some ⟨hashFn ha file_data, a ++ ":" ++ hashFn ha file_data⟩) ∧
        (∀ a, a ∉ algos → lookupA m' a = lookupA m a) := by
  induction algos with
  | nil =>
    intro pre m _
    refine ⟨m, rfl, ?_, ?_⟩
    · intro a ha h1 _
      cases h1
    · intro a _
      rfl
  | cons b rest ih =>
    intro pre m hall
    obtain ⟨hb', hbeq⟩ : ∃ x, lookupA TREE_ALGORITHMS b = some x :=
      Option.isSome_iff_exists.mp (hall b (List.mem_cons_self b rest))
    obtain ⟨m', hm', hin, hout⟩ :=
      ih pre (dictInsert m b ⟨hashFn hb' file_data, b ++ ":" ++ hashFn hb' file_data⟩)
        (fun x hx => hall x (List.mem_cons_of_mem b hx))
    refine ⟨m', ?_, ?_, ?_⟩
    · simp only [addTreeHashes, if_neg hnp, hbeq]
      exact hm'
    · intro a ha hmem hlook
      rcases List.mem_cons.mp hmem with rfl | hmem'
      · by_cases hr : a ∈ rest
        · exact hin a ha hr hlook
        · have hv : ha = hb' := by
            rw [hlook] at hbeq
            exact Option.some.inj hbeq
          rw [hout a hr, hv, lookupA_dictInsert_self]
      · exact hin a ha hmem' hlook
    · intro a hnot
      have hne : a ≠ b := fun hh => hnot (hh ▸ List.mem_cons_self b rest)
      have hr : a ∉ rest := fun hh => hnot (List.mem_cons_of_mem b hh)
      rw [hout a hr, lookupA_dictInsert_ne m b a _ hne]

/-- One failing entry anywhere in the results list makes compute_hashes raise. -/
theorem compute_hashes_mem_error (hashFn : String → String → String)
    (algorithms : Option (List String)) (entry : Entry)
    (herr : ∃ msg, computeEntryHashes hashFn algorithms entry = .error msg) :
    ∀ results, entry ∈ results →
      ∃ msg, compute_hashes hashFn results algorithms = .error msg := by
  intro results hmem
  induction results with
  | nil => cases hmem
  | cons e rest ih =>
    cases hce : computeEntryHashes hashFn algorithms e with
    | error s => exact ⟨s, by simp [compute_hashes, hce]⟩
    | ok e' =>
      rcases List.mem_cons.mp hmem with rfl | hmem'
      · obtain ⟨msg, hmsg⟩ := herr
        rw [hmsg] at hce
        cases hce
      · obtain ⟨msg, hmsg⟩ := ih hmem'
        exact ⟨msg, by simp [compute_hashes, hce, hmsg]⟩

/-- C9: for a project entry, a requested tree algorithm whose tree hash was
not pre-computed into the entry makes compute_hashes raise (fail loudly); for
a non-project entry the same request succeeds and yields the hash of the file
itself under the tree algorithm's underlying digest, labeled with the
tree-algorithm name. -/
theorem compute_hashes_tree_algo_cases (hashFn : String → String → String)
    (algos : List String) (a ha : String) (hta : lookupA TREE_ALGORITHMS a = some ha)
    (haIn : a ∈ algos) (entry : Entry) :
    (entry.type = "project" → lookupA entry.tree_pre a = none →
      ∀ results, entry ∈ results →
        ∃ msg, compute_hashes hashFn results (some algos) = .error msg) ∧
    (¬ entry.type = "project" →
      ∃ e', computeEntryHashes hashFn (some algos) entry = .ok e' ∧
        lookupA e'.hashes a =
          some ⟨hashFn ha entry.file_data, a ++ ":" ++ hashFn ha entry.file_data⟩) := by
  have hmemAll : a ∈ allAlgos (some algos) :=
    List.mem_cons_of_mem _ (List.mem_cons_of_mem _ haIn)
  have hmemTree : a ∈ (allAlgos (some algos)).filter (fun x => isTreeAlgo x) :=
    List.mem_filter.mpr ⟨hmemAll, by simp [isTreeAlgo, hta]⟩
  constructor
  · intro hproj hmiss results hres
    apply compute_hashes_mem_error hashFn (some algos) entry _ results hres
    obtain ⟨msg, hmsg⟩ :=
      addTreeHashes_missing hashFn entry.file_data
        ((allAlgos (some algos)).filter (fun x => isTreeAlgo x)) a hmemTree
        entry.tree_pre
        (addFileHashes hashFn entry.file_data
          ((allAlgos (some algos)).filter (fun x => !(isTreeAlgo x))) [])
        hmiss
    refine ⟨msg, ?_⟩
    simp only [computeEntryHashes]
    rw [← hproj] at hmsg
    rw [hmsg]
  · intro hnp
    obtain ⟨m', hm', hin, _⟩ :=
      addTreeHashes_nonproject hashFn entry.type entry.file_data hnp
        ((allAlgos (some algos)).filter (fun x => isTreeAlgo x))
        entry.tree_pre
        (addFileHashes hashFn entry.file_data
          ((allAlgos (some algos)).filter (fun x => !(isTreeAlgo x))) [])
        (fun x hx => (List.mem_filter.mp hx).2)
    refine ⟨{ entry with hashes := m', tree_pre := entry.tree_pre }, ?_, ?_⟩
    · simp only [computeEntryHashes]
      rw [hm']
    · exact hin a ha hmemTree hta

/-- Concrete project entry with no pre-computed tree hash, for the witness. -/
def entryP : Entry := ⟨"zipdata", "proj", "zip", "project", [], []⟩

/-- Concrete non-project entry for the witness. -/
def entryN : Entry := ⟨"data", "doc", "pdf", "main_file", [], []⟩

/-- Witness for C9: the project entry with no pre-computed tree hash makes
compute_hashes raise; the non-project entry receives the labeled fallback. -/
theorem compute_hashes_tree_algo_cases_witness :
    (∃ msg, compute_hashes hashFnW [entryP] (some ["tree"]) = .error msg) ∧
    (∃ e', computeEntryHashes hashFnW (some ["tree"]) entryN = .ok e' ∧
      lookupA e'.hashes "tree" =
        some ⟨hashFnW "sha1" entryN.file_data, "tree" ++ ":" ++ hashFnW "sha1" entryN.file_data⟩) :=
  ⟨(compute_hashes_tree_algo_cases hashFnW ["tree"] "tree" "sha1" rfl (by decide) entryP).1
      rfl rfl [entryP] (by decide),
   (compute_hashes_tree_algo_cases hashFnW ["tree"] "tree" "sha1" rfl (by decide) entryN).2
      (by decide)⟩

/-- Configuration slice consumed by _compute_identifiers: the identifier
file-selector set and the configured hash algorithms. -/
structure Config where
  zenodo_identifier_types : List String
  hash_algorithms : List String

/-- The entries matching the configured identifier file-selector
(archive_operation.py, _compute_identifiers): extension or type is in the
selector set. -/
def matchingEntries (cfg : Config) (results : List Entry) : List Entry :=
  results.filter (fun e => cfg.zenodo_identifier_types.contains e.extension
                        || cfg.zenodo_identifier_types.contains e.type)

/-- An identifier dict as built by _compute_identifiers. -/
structure Identifier where
  value : String
  formatted_value : String
  type : String
  files : List String
  description : String
deriving DecidableEq

/-- Model of Python "".join(l). -/
def strJoin : List String → String
  | [] => ""
  | s :: rest => s ++ strJoin rest

/-- The file_hashes list comprehension of _compute_identifiers:
entry["hashes"][algorithm]["value"] for each matching entry, in enumeration
order; a missing algorithm key is Python's KeyError. -/
def collectFileHashes (algorithm : String) : List Entry → Except String (List String)
  | [] => .ok []
  | e :: rest =>
    match lookupA e.hashes algorithm with
    | none => .error ("KeyError: " ++ algorithm)
    | some h =>
      match collectFileHashes algorithm rest with
      | .error s => .error s
      | .ok vs => .ok (h.value :: vs)

/-- One identifier dict of _compute_identifiers: a single file hash passes
through unchanged, several are sorted, concatenated and re-hashed with the
algorithm (tree names mapped to their underlying hashlib algorithm); the
files field stores file_hashes as enumerated, the description is fixed. -/
def identifierFor (hashFn : String → String → String) (algorithm : String)
    (file_hashes : List String) : Identifier :=
  let identifier_hash :=
    if file_hashes.length = 1 then file_hashes.headD ""
    else hashFn ((lookupA TREE_ALGORITHMS algorithm).getD algorithm)
           (strJoin (sortHashes file_hashes))
  ⟨identifier_hash, algorithm ++ ":" ++ identifier_hash, algorithm, file_hashes,
   "sorted by hash value"⟩

/-- The per-algorithm loop of _compute_identifiers. -/
def identifiersLoop (hashFn : String → String → String) (matching : List Entry) :
    List String → Except String (List Identifier)
  | [] => .ok []
  | algorithm :: rest =>
    match collectFileHashes algorithm matching with
    | .error s => .error s
    | .ok fhs =>
      match identifiersLoop hashFn matching rest with
      | .error s => .error s
      | .ok ids => .ok (identifierFor hashFn algorithm fhs :: ids)

/-- Embedding of _compute_identifiers (archive_operation.py): None when no
entry matches the selector, otherwise one identifier per configured
algorithm. -/
def compute_identifiers (hashFn : String → String → String) (cfg : Config)
    (results : List Entry) : Except String (Option (List Identifier)) :=
  let matching := matchingEntries cfg results
  if matching = [] then .ok none
  else
    match identifiersLoop hashFn matching cfg.hash_algorithms with
    | .error s => .error s
    | .ok ids => .ok (some ids)

/-- Concrete configuration for identifier evaluations. -/
def cfgW : Config := ⟨["zip"], ["sha256"]⟩

/-- First matching entry, hash value "bb". -/
def eA : Entry := ⟨"", "pA", "zip", "project", [], [("sha256", ⟨"bb", "sha256:bb"⟩)]⟩

/-- Second matching entry, hash value "aa". -/
def eB : Entry := ⟨"", "pB", "zip", "project", [], [("sha256", ⟨"aa", "sha256:aa"⟩)]⟩

/-- C6: the claim (and the description field the code itself emits) states the
files attribute is sorted ascending by hash value regardless of enumeration
order. The code stores file_hashes in entry enumeration order: with entries
enumerating "bb" before "aa", files = ["bb", "aa"] although the sorted order
is ["aa", "bb"], while the identifier value is folded from the sorted
concatenation "aabb" and the emitted description still reads "sorted by hash
value". -/
theorem identifier_files_enumeration_order :
    compute_identifiers hashFnW cfgW [eA, eB] =
      .ok (some [⟨"sha256-aabb", "sha256:sha256-aabb", "sha256", ["bb", "aa"],
                 "sorted by hash value"⟩]) ∧
    sortHashes ["bb", "aa"] = ["aa", "bb"] ∧
    (["bb", "aa"] : List String) ≠ ["aa", "bb"] := by
  refine ⟨rfl, rfl, by decide⟩

/-- The hash values the comprehension extracts when every lookup succeeds. -/
def valsOf (algorithm : String) : List Entry → List String
  | [] => []
  | e :: rest =>
    match lookupA e.hashes algorithm with
    | none => valsOf algorithm rest
    | some h => h.value :: valsOf algorithm rest

/-- When every matching entry has the algorithm key, the comprehension
succeeds and returns the values in enumeration order. -/
theorem collectFileHashes_ok (algorithm : String) (entries : List Entry)
    (h : ∀ e ∈ entries, (lookupA e.hashes algorithm).isSome) :
    collectFileHashes algorithm entries = .ok (valsOf algorithm entries) := by
  induction entries with
  | nil => rfl
  | cons e rest ih =>
    obtain ⟨v, hv⟩ := Option.isSome_iff_exists.mp (h e (List.mem_cons_self e rest))
    simp only [collectFileHashes, hv]
    rw [ih (fun x hx => h x (List.mem_cons_of_mem e hx))]
    simp [valsOf, hv]

/-- Under the same condition the extracted list has one value per entry. -/
theorem valsOf_length (algorithm : String) (entries : List Entry)
    (h : ∀ e ∈ entries, (lookupA e.hashes algorithm).isSome) :
    (valsOf algorithm entries).length = entries.length := by
  induction entries with
  | nil => rfl
  | cons e rest ih =>
    obtain ⟨v, hv⟩ := Option.isSome_iff_exists.mp (h e (List.mem_cons_self e rest))
    have ih' := ih (fun x hx => h x (List.mem_cons_of_mem e hx))
    simp only [valsOf, hv, List.length_cons, ih']

/-- Extraction distributes over appended entry lists. -/
theorem valsOf_append (algorithm : String) (l1 l2 : List Entry) :
    valsOf algorithm (l1 ++ l2) = valsOf algorithm l1 ++ valsOf algorithm l2 := by
  induction l1 with
  | nil => rfl
  | cons e rest ih =>
    simp only [List.cons_append, valsOf]
    cases lookupA e.hashes algorithm <;> simp [ih]

/-- Extraction commutes with reversing the entry list. -/
theorem valsOf_reverse (algorithm : String) (entries : List Entry) :
    valsOf algorithm entries.reverse = (valsOf algorithm entries).reverse := by
  induction entries with
  | nil => rfl
  | cons e rest ih =>
    simp only [List.reverse_cons, valsOf_append, ih, valsOf]
    cases lookupA e.hashes algorithm <;> simp [valsOf]

/-- Selection commutes with reversing the results list. -/
theorem matchingEntries_reverse (cfg : Config) (results : List Entry) :
    matchingEntries cfg results.reverse = (matchingEntries cfg results).reverse := by
  simp [matchingEntries, List.filter_reverse]

/-- With at least two folded hashes, the identifier value is invariant under
reversing the hash list: the fold sorts before concatenating. -/
theorem identifierFor_value_rev (hashFn : String → String → String) (algorithm : String)
    (l : List String) (h2 : 2 ≤ l.length) :
    (identifierFor hashFn algorithm l.reverse).value =
      (identifierFor hashFn algorithm l).value := by
  simp only [identifierFor]
  have hlen : l.reverse.length = l.length := List.length_reverse l
  have hne : ¬ l.length = 1 := by omega
  have hne' : ¬ l.reverse.length = 1 := by rw [hlen]; omega
  rw [if_neg hne, if_neg hne', sortHashes_perm (List.reverse_perm l)]

/-- The per-algorithm loop run on the reversed matching entries produces
identifiers with the same values and types, provided at least two entries
match and every lookup succeeds. -/
theorem identifiersLoop_reverse (hashFn : String → String → String) (M : List Entry)
    (algs : List String) (h2 : 2 ≤ M.length)
    (hkeys : ∀ alg ∈ algs, ∀ e ∈ M, (lookupA e.hashes alg).isSome) :
    ∃ ids ids', identifiersLoop hashFn M algs = .ok ids ∧
      identifiersLoop hashFn M.reverse algs = .ok ids' ∧
      ids'.map (fun i => i.value) = ids.map (fun i => i.value) ∧
      ids'.map (fun i => i.type) = ids.map (fun i => i.type) := by
  induction algs with
  | nil => exact ⟨[], [], rfl, rfl, rfl, rfl⟩
  | cons alg rest ih =>
    have hk : ∀ e ∈ M, (lookupA e.hashes alg).isSome :=
      hkeys alg (List.mem_cons_self alg rest)
    have hk' : ∀ e ∈ M.reverse, (lookupA e.hashes alg).isSome :=
      fun e he => hk e (List.mem_reverse.mp he)
    obtain ⟨ids, ids', h1, h1', h3, h4⟩ :=
      ih (fun alg' h' => hkeys alg' (List.mem_cons_of_mem alg h'))
    have hc := collectFileHashes_ok alg M hk
    have hc' := collectFileHashes_ok alg M.reverse hk'
    rw [valsOf_reverse] at hc'
    have hlen2 : 2 ≤ (valsOf alg M).length := by
      rw [valsOf_length alg M hk]; exact h2
    refine ⟨identifierFor hashFn alg (valsOf alg M) :: ids,
            identifierFor hashFn alg ((valsOf alg M).reverse) :: ids', ?_, ?_, ?_, ?_⟩
    · simp [identifiersLoop, hc, h1]
    · simp [identifiersLoop, hc', h1']
    · simp only [List.map_cons, h3, List.cons.injEq, and_true]
      exact identifierFor_value_rev hashFn alg (valsOf alg M) hlen2
    · simp [identifierFor, h4]

/-- C4: with two or more matching entries (each carrying a hash for every
configured algorithm), the identifier computation run on the entries in
original order and in reversed order yields the same identifier value for
every configured algorithm: the per-file hashes are sorted before being
concatenated and re-hashed. -/
theorem compute_identifiers_reverse_invariant (hashFn : String → String → String)
    (cfg : Config) (results : List Entry)
    (h2 : 2 ≤ (matchingEntries cfg results).length)
    (hkeys : ∀ alg ∈ cfg.hash_algorithms, ∀ e ∈ matchingEntries cfg results,
      (lookupA e.hashes alg).isSome) :
    ∃ ids ids' : List Identifier,
      compute_identifiers hashFn cfg results = .ok (some ids) ∧
      compute_identifiers hashFn cfg results.reverse = .ok (some ids') ∧
      ids'.map (fun i => i.value) = ids.map (fun i => i.value) ∧
      ids'.map (fun i => i.type) = ids.map (fun i => i.type) := by
  obtain ⟨ids, ids', h1, h1', h3, h4⟩ :=
    identifiersLoop_reverse hashFn (matchingEntries cfg results) cfg.hash_algorithms h2 hkeys
  have hne : ¬ matchingEntries cfg results = [] := by
    intro hh
    rw [hh] at h2
    simp at h2
  have hne' : ¬ matchingEntries cfg results.reverse = [] := by
    rw [matchingEntries_reverse]
    intro hh
    exact hne (List.reverse_eq_nil_iff.mp hh)
  have hner : ¬ (matchingEntries cfg results).reverse = [] := by
    rw [matchingEntries_reverse] at hne'
    exact hne'
  refine ⟨ids, ids', ?_, ?_, h3, h4⟩
  · simp only [compute_identifiers, if_neg hne, h1]
  · simp only [compute_identifiers, matchingEntries_reverse, if_neg hner, h1']

/-- Witness for C4: two matching zip entries with sha256 values "bb" and "aa". -/
theorem compute_identifiers_reverse_invariant_witness :
    ∃ ids ids' : List Identifier,
      compute_identifiers hashFnW cfgW [eA, eB] = .ok (some ids) ∧
      compute_identifiers hashFnW cfgW [eA, eB].reverse = .ok (some ids') ∧
      ids'.map (fun i => i.value) = ids.map (fun i => i.value) ∧
      ids'.map (fun i => i.type) = ids.map (fun i => i.type) :=
  compute_identifiers_reverse_invariant hashFnW cfgW [eA, eB] (by decide) (by decide)

/-- A single folded hash passes through identifierFor unchanged: no hash
function is consulted. -/
theorem identifierFor_single (hashFn : String → String → String) (alg x : String) :
    identifierFor hashFn alg [x] =
      ⟨x, alg ++ ":" ++ x, alg, [x], "sorted by hash value"⟩ := rfl

/-- The per-algorithm loop over a single matching entry: the identifiers it
builds are independent of the hash function, one per algorithm, and each value
is the entry's own hash value for that algorithm. -/
theorem identifiersLoop_single (hashFn hashFn2 : String → String → String) (e : Entry)
    (algs : List String)
    (hkeys : ∀ alg ∈ algs, (lookupA e.hashes alg).isSome) :
    ∃ ids, identifiersLoop hashFn [e] algs = .ok ids ∧
      identifiersLoop hashFn2 [e] algs = .ok ids ∧
      ids.length = algs.length ∧
      ∀ i (hi : i < ids.length) (hj : i < algs.length) v,
        lookupA e.hashes (algs.get ⟨i, hj⟩) = some v →
        (ids.get ⟨i, hi⟩).value = v.value := by
  induction algs with
  | nil =>
    refine ⟨[], rfl, rfl, rfl, ?_⟩
    intro i hi hj v hv
    exact absurd hi (Nat.not_lt_zero i)
  | cons alg rest ih =>
    obtain ⟨v0, hv0⟩ := Option.isSome_iff_exists.mp (hkeys alg (List.mem_cons_self alg rest))
    obtain ⟨ids, ha1, ha2, hlen, hidx⟩ := ih (fun x hx => hkeys x (List.mem_cons_of_mem alg hx))
    have hc : collectFileHashes alg [e] = .ok [v0.value] := by
      simp [collectFileHashes, hv0]
    refine ⟨⟨v0.value, alg ++ ":" ++ v0.value, alg, [v0.value], "sorted by hash value"⟩ :: ids,
            ?_, ?_, ?_, ?_⟩
    · simp [identifiersLoop, hc, ha1, identifierFor_single]
    · simp [identifiersLoop, hc, ha2, identifierFor_single]
    · simp [hlen]
    · intro i hi hj v hv
      cases i with
      | zero =>
        have hv' : lookupA e.hashes alg = some v := hv
        rw [hv0] at hv'
        cases hv'
        rfl
      | succ n =>
        have hv' : lookupA e.hashes (rest.get ⟨n, Nat.lt_of_succ_lt_succ hj⟩) = some v := hv
        exact hidx n (Nat.lt_of_succ_lt_succ hi) (Nat.lt_of_succ_lt_succ hj) v hv'

/-- C5: when exactly one entry matches the configured identifier
file-selector, each algorithm's identifier value equals that entry's own hash
value for the algorithm, with no re-hashing applied: the result does not
depend on the hash function at all. -/
theorem compute_identifiers_single_passthrough (hashFn hashFn2 : String → String → String)
    (cfg : Config) (results : List Entry) (e : Entry)
    (hm : matchingEntries cfg results = [e])
    (hkeys : ∀ alg ∈ cfg.hash_algorithms, (lookupA e.hashes alg).isSome) :
    ∃ ids, compute_identifiers hashFn cfg results = .ok (some ids) ∧
      compute_identifiers hashFn2 cfg results = .ok (some ids) ∧
      ids.length = cfg.hash_algorithms.length ∧
      ∀ i (hi : i < ids.length) (hj : i < cfg.hash_algorithms.length) v,
        lookupA e.hashes (cfg.hash_algorithms.get ⟨i, hj⟩) = some v →
        (ids.get ⟨i, hi⟩).value = v.value := by
  obtain ⟨ids, ha1, ha2, hlen, hidx⟩ :=
    identifiersLoop_single hashFn hashFn2 e cfg.hash_algorithms hkeys
  refine ⟨ids, ?_, ?_, hlen, hidx⟩
  · simp [compute_identifiers, hm, ha1]
  · simp [compute_identifiers, hm, ha2]

/-- Witness for C5: one matching entry, two different hash functions, same
identifiers, value equal to the entry's sha256 hash value. -/
theorem compute_identifiers_single_passthrough_witness :
    ∃ ids, compute_identifiers hashFnW cfgW [eA] = .ok (some ids) ∧
      compute_identifiers (fun _ d => d) cfgW [eA] = .ok (some ids) ∧
      ids.length = cfgW.hash_algorithms.length ∧
      ∀ i (hi : i < ids.length) (hj : i < cfgW.hash_algorithms.length) v,
        lookupA eA.hashes (cfgW.hash_algorithms.get ⟨i, hj⟩) = some v →
        (ids.get ⟨i, hi⟩).value = v.value :=
  compute_identifiers_single_passthrough hashFnW (fun _ d => d) cfgW [eA] eA rfl (by decide)
